import Mathlib

/-!
Shallow embedding of the `shamir_share_mpc` repository (src/lib.rs, src/main.rs).

`ModInt<MOD>` stores a `usize` value; we model values as `ℕ` and each operation
as the source computes it (with the explicit `% MOD` reductions of the source).
Following the spec (§4.1), intermediate products are assumed not to overflow the
machine word, so `usize` arithmetic is modelled by exact `ℕ` arithmetic.
Rust panics (zero division, `unwrap` on `None`, out-of-bounds indexing, the
explicit `panic!("Invalid participants")`) are modelled by `Except`/`Option`
error results.

The protocol code in main.rs is generic over a numeric type `T`; we mirror this
with an explicit dictionary `FieldOps T` and instantiate it both with the
`ModInt` operations on `ℕ` (`modOps M`) and with a Lean `Field F` (`fieldOps F`),
matching the two ways `T` is used in the source.
-/

namespace Shamir

/-- Panics / error outcomes of the source, by provenance. -/
inductive RErr : Type
  | divisionByZero
  | invalidParticipants
  | unwrapPanic
  | indexPanic
deriving DecidableEq

/-! ## ModInt value-level operations (src/lib.rs) -/

/-- `ModInt::new` (lib.rs:41): reduce at construction. -/
def mnew (M n : ℕ) : ℕ := n % M

/-- The `From<I> for ModInt` conversion (lib.rs:29): reduce at construction. -/
def mfrom (M n : ℕ) : ℕ := n % M

/-- `Num::from_str_radix for ModInt` (lib.rs:17): the string is parsed to a
`usize` by the standard library (modelled as the parsed number `n`) and stored
directly, with no reduction modulo `M`. -/
def from_str_radix (M n : ℕ) : ℕ := n

/-- `ops::Add for ModInt` (lib.rs:80). -/
def madd (M a b : ℕ) : ℕ := (a + b) % M

/-- `ops::Mul for ModInt` (lib.rs:98). -/
def mmul (M a b : ℕ) : ℕ := (a * b) % M

/-- `ops::Sub for ModInt` (lib.rs:116): conditionally add `M`, then subtract
`other.val % M` (the source's `self.val - other.val % MOD`, where `%` binds
tighter than `-`). -/
def msub (M a b : ℕ) : ℕ := (if a < b then a + M else a) - b % M

/-- The `while n > 0` loop of `ModInt::pow_u` (lib.rs:57): state
`(val, res, n)`.  The loop halves `n` each iteration, so `n` itself bounds the
iteration count; the first argument is that structural bound. -/
def powLoop (M : ℕ) : ℕ → ℕ → ℕ → ℕ → ℕ
  | 0, _, res, _ => res
  | fuel+1, val, res, n =>
    if n = 0 then res
    else powLoop M fuel ((val * val) % M) (if n % 2 = 1 then (res * val) % M else res) (n / 2)

/-- `ModInt::pow_u` (lib.rs:54): square-and-multiply with `res` seeded to `1`. -/
def pow_u (M a n : ℕ) : ℕ := powLoop M n a 1 n

/-- `ModInt::inv` (lib.rs:72): `self.pow_u(MOD - 2)`, with no zero check. -/
def minv (M a : ℕ) : ℕ := pow_u M a (M - 2)

/-- `ops::Div for ModInt` (lib.rs:140): panic on a zero divisor, otherwise
multiply by the inverse. -/
def mdiv (M a b : ℕ) : Except RErr ℕ :=
  if b = 0 then .error .divisionByZero else .ok (mmul M a (minv M b))

/-! ## The generic operation dictionary for the protocol code (main.rs) -/

/-- The operations the generic protocol code of main.rs needs from its type
parameter `T` (the `NumAssign + From<u16>` bound): constants, ring operations,
the fallible division, and the conversion from a participant id. -/
structure FieldOps (T : Type) where
  zero : T
  one : T
  add : T → T → T
  sub : T → T → T
  mul : T → T → T
  div : T → T → Except RErr T
  ofId : ℕ → T

/-- The `ModInt<M>` instantiation of the protocol's type parameter. -/
def modOps (M : ℕ) : FieldOps ℕ :=
  { zero := 0
    one := 1
    add := madd M
    sub := msub M
    mul := mmul M
    div := mdiv M
    ofId := mfrom M }

/-- Instantiation of the protocol's type parameter at an exact Lean field
(the semantics the spec assigns to the generic code): division errors on a
zero divisor, as the `ModInt` instance does. -/
def fieldOps (F : Type) [Field F] [DecidableEq F] : FieldOps F :=
  { zero := 0
    one := 1
    add := (· + ·)
    sub := (· - ·)
    mul := (· * ·)
    div := fun a b => if b = 0 then .error .divisionByZero else .ok (a / b)
    ofId := fun n => (n : F) }

/-! ## Lagrange weights: `phis` (main.rs:77) -/

/-- Inner loop of `phis` (main.rs:85): running over the enumerated participant
list, skipping index `i`, panicking on a duplicate field image, and otherwise
multiplying `r` by `(0 - q) / (p - q)`. -/
def phisLoop {T : Type} [DecidableEq T] (ops : FieldOps T) (i : ℕ) (p : T) :
    List (ℕ × ℕ) → T → Except RErr T
  | [], r => .ok r
  | (j, qId) :: rest, r =>
    if i = j then phisLoop ops i p rest r
    else if p = ops.ofId qId then .error .invalidParticipants
    else do
      let d ← ops.div (ops.sub ops.zero (ops.ofId qId)) (ops.sub p (ops.ofId qId))
      phisLoop ops i p rest (ops.mul r d)

/-- Outer loop of `phis` (main.rs:82): one weight per enumerated participant,
inserted under the original id. -/
def phisOuter {T : Type} [DecidableEq T] (ops : FieldOps T) (all : List (ℕ × ℕ)) :
    List (ℕ × ℕ) → Except RErr (List (ℕ × T))
  | [] => .ok []
  | (i, pid) :: rest => do
    let r ← phisLoop ops i (ops.ofId pid) all ops.one
    let tail ← phisOuter ops all rest
    .ok ((pid, r) :: tail)

/-- `phis` (main.rs:77): Lagrange weights at `x = 0` for the given participant
ids; the result map is modelled as an association list in insertion order. -/
def phis {T : Type} [DecidableEq T] (ops : FieldOps T) (parts : List ℕ) :
    Except RErr (List (ℕ × T)) :=
  phisOuter ops parts.enum parts.enum

/-! ## Player (main.rs:6) -/

/-- `Player<T>` (main.rs:6).  The boxed polynomial closure captures clones of
`secret` and `rands` plus the threshold `k`; since both captured fields are
immutable after `new`, the closure is represented by the captured `k`
(`polyK = some k` once `make_poly` ran), and evaluation is `polyEval`. -/
structure Player (T : Type) where
  id : ℕ
  secret : T
  rands : List T
  polyK : Option ℕ
  shares : List (ℕ × T)
  folded : T

/-- Loop of the polynomial closure (main.rs:52):
`for i in 0..(k-1) { res += rands[i] * xn; xn *= x; }`, with the source's
indexing panic when `rands` is too short.  The first `ℕ` argument counts the
remaining iterations (initially `k - 1`), the second is the running index. -/
def polyEvalGo {T : Type} (ops : FieldOps T) (rands : List T) (x : T) :
    ℕ → ℕ → T → T → Except RErr T
  | 0, _, res, _ => .ok res
  | left+1, i, res, xn =>
    match rands.get? i with
    | none => .error .indexPanic
    | some c => polyEvalGo ops rands x left (i + 1) (ops.add res (ops.mul c xn)) (ops.mul xn x)

/-- Evaluation of the polynomial closure built by `make_poly` (main.rs:49):
`res` starts at `secret`, `xn` starts at `x`. -/
def polyEval {T : Type} (ops : FieldOps T) (secret : T) (rands : List T) (k : ℕ) (x : T) :
    Except RErr T :=
  polyEvalGo ops rands x (k - 1) 0 secret x

/-- `HashMap::insert`: set the value stored under `key`. -/
def insertShare {T : Type} : List (ℕ × T) → ℕ → T → List (ℕ × T)
  | [], key, v => [(key, v)]
  | (k0, v0) :: rest, key, v =>
    if k0 = key then (key, v) :: rest else (k0, v0) :: insertShare rest key v

/-- `Player::new` (main.rs:35). -/
def Player.new {T : Type} (ops : FieldOps T) (id : ℕ) (secret : T) (rands : List T) : Player T :=
  { id := id, secret := secret, rands := rands, polyK := none, shares := [], folded := ops.zero }

/-- `Player::make_poly` (main.rs:46): store the closure and insert the self
share `P(id)` under the player's own id. -/
def Player.make_poly {T : Type} (ops : FieldOps T) (pl : Player T) (k : ℕ) :
    Except RErr (Player T) := do
  let sh ← polyEval ops pl.secret pl.rands k (ops.ofId pl.id)
  .ok { pl with polyK := some k, shares := insertShare pl.shares pl.id sh }

/-- `Player::give_share` (main.rs:62): `unwrap` the polynomial (panicking when
`make_poly` has not run) and evaluate it at the opposite id. -/
def Player.give_share {T : Type} (ops : FieldOps T) (pl : Player T) (oppositeId : ℕ) :
    Except RErr T :=
  match pl.polyK with
  | none => .error .unwrapPanic
  | some k => polyEval ops pl.secret pl.rands k (ops.ofId oppositeId)

/-- `Player::recieve_share` (main.rs:66): ask the other player for a share at
our id and insert it under the other player's id. -/
def Player.recieve_share {T : Type} (ops : FieldOps T) (pl other : Player T) :
    Except RErr (Player T) := do
  let v ← Player.give_share ops other pl.id
  .ok { pl with shares := insertShare pl.shares other.id v }

/-- `Player.fold_share` (main.rs:71): apply the caller-supplied reduction to the
shares map and store the result. -/
def Player.fold_share {T : Type} (pl : Player T) (method : List (ℕ × T) → T) : Player T :=
  { pl with folded := method pl.shares }

/-- The additive fold used by `add_simulation` (main.rs:270):
`shares.values().fold(zero, |acc, e| acc + e)`. -/
def foldSum {T : Type} (ops : FieldOps T) (sh : List (ℕ × T)) : T :=
  (sh.map Prod.snd).foldl ops.add ops.zero

/-- The multiplicative fold used by `mul_simulation` (main.rs:315):
`shares.values().fold(one, |acc, e| acc * e)`. -/
def foldProd {T : Type} (ops : FieldOps T) (sh : List (ℕ × T)) : T :=
  (sh.map Prod.snd).foldl ops.mul ops.one

/-- The weighted fold of the resharing round (main.rs:354): each received share
is multiplied by the Lagrange weight of its sender before summation; the
`unwrap` on the weight lookup is modelled by a zero default (never taken in the
simulation, where every sender is in the weight map). -/
def foldWeighted {T : Type} (ops : FieldOps T) (ws : List (ℕ × T)) (sh : List (ℕ × T)) : T :=
  (sh.map (fun kv => ops.mul ((List.lookup kv.1 ws).getD ops.zero) kv.2)).foldl ops.add ops.zero

/-- The inline two-party reconstruction of the simulations (main.rs:281):
`w_a * folded_a + w_b * folded_b`, with panicking weight lookups. -/
def recon2 {T : Type} (ops : FieldOps T) (ws : List (ℕ × T)) (a b : Player T) :
    Except RErr T :=
  match List.lookup a.id ws, List.lookup b.id ws with
  | some wa, some wb => .ok (ops.add (ops.mul wa a.folded) (ops.mul wb b.folded))
  | _, _ => .error .unwrapPanic

/-! ## The concrete simulations over `ModInt<17>` (main.rs:251, main.rs:300) -/

/-- `add_simulation` (main.rs:251) up to the three printed reconstructions:
returns the `[p1,p2]`, `[p1,p3]`, `[p2,p3]` reconstructed values. -/
def addSim : Except RErr (ℕ × ℕ × ℕ) := do
  let ops := modOps 17
  let p1 := Player.new ops 1 2 [5]
  let p2 := Player.new ops 2 4 [3]
  let p3 := Player.new ops 3 6 [7]
  let p1 ← Player.make_poly ops p1 2
  let p2 ← Player.make_poly ops p2 2
  let p1 ← Player.recieve_share ops p1 p2
  let p2 ← Player.recieve_share ops p2 p1
  let p3 ← Player.recieve_share ops p3 p1
  let p3 ← Player.recieve_share ops p3 p2
  let phs12 ← phis ops [p1.id, p2.id]
  let phs13 ← phis ops [p1.id, p3.id]
  let phs23 ← phis ops [p2.id, p3.id]
  let p1 := Player.fold_share p1 (foldSum ops)
  let p2 := Player.fold_share p2 (foldSum ops)
  let p3 := Player.fold_share p3 (foldSum ops)
  let r12 ← recon2 ops phs12 p1 p2
  let r13 ← recon2 ops phs13 p1 p3
  let r23 ← recon2 ops phs23 p2 p3
  .ok (r12, r13, r23)

/-- `mul_simulation` (main.rs:300) up to the three printed reconstructions,
with the fixed resharing coefficients `i1 = 7, i2 = 9, i3 = 11` of the source:
returns the `[p1,p2]`, `[p1,p3]`, `[p2,p3]` reconstructed values. -/
def mulSim : Except RErr (ℕ × ℕ × ℕ) := do
  let ops := modOps 17
  let p1 := Player.new ops 1 2 [5]
  let p2 := Player.new ops 2 4 [3]
  let p3 := Player.new ops 3 6 [7]
  let p1 ← Player.make_poly ops p1 2
  let p2 ← Player.make_poly ops p2 2
  let p1 ← Player.recieve_share ops p1 p2
  let p2 ← Player.recieve_share ops p2 p1
  let p3 ← Player.recieve_share ops p3 p1
  let p3 ← Player.recieve_share ops p3 p2
  let p1 := Player.fold_share p1 (foldProd ops)
  let p2 := Player.fold_share p2 (foldProd ops)
  let p3 := Player.fold_share p3 (foldProd ops)
  let p1m := Player.new ops 1 p1.folded [mfrom 17 7]
  let p2m := Player.new ops 2 p2.folded [mfrom 17 9]
  let p3m := Player.new ops 3 p3.folded [mfrom 17 11]
  let p1m ← Player.make_poly ops p1m 2
  let p2m ← Player.make_poly ops p2m 2
  let p3m ← Player.make_poly ops p3m 2
  let p1m ← Player.recieve_share ops p1m p2m
  let p1m ← Player.recieve_share ops p1m p3m
  let p2m ← Player.recieve_share ops p2m p1m
  let p2m ← Player.recieve_share ops p2m p3m
  let p3m ← Player.recieve_share ops p3m p1m
  let p3m ← Player.recieve_share ops p3m p2m
  let phs123 ← phis ops [p1.id, p2.id, p3.id]
  let p1m := Player.fold_share p1m (foldWeighted ops phs123)
  let p2m := Player.fold_share p2m (foldWeighted ops phs123)
  let p3m := Player.fold_share p3m (foldWeighted ops phs123)
  let phs12 ← phis ops [p1m.id, p2m.id]
  let phs13 ← phis ops [p1m.id, p3m.id]
  let phs23 ← phis ops [p2m.id, p3m.id]
  let r12 ← recon2 ops phs12 p1m p2m
  let r13 ← recon2 ops phs13 p1m p3m
  let r23 ← recon2 ops phs23 p2m p3m
  .ok (r12, r13, r23)

/-! ## General exchange and reconstruction (spec §4.3–§4.5)

The source inlines the exchange/fold/reconstruct pipeline for fixed two- and
three-party demos; the spec states it for arbitrary participant sets.  The
following definitions are the general pipeline assembled from the embedded
pieces (`polyEval`, `foldSum`, `phis`). -/

/-- Modelled from the spec: §4.3/§4.5 — the shares participant `j` receives
when every dealer `(id, secret, coefficients)` evaluates its degree-`(k-1)`
polynomial at `j` (the all-to-all `give_share`/`recieve_share` exchange, which
the source only instantiates for fixed two- and three-party sets). -/
def sharesFor {T : Type} (ops : FieldOps T) (k j : ℕ) :
    List (ℕ × T × List T) → Except RErr (List (ℕ × T))
  | [] => .ok []
  | d :: rest => do
    let v ← polyEval ops d.2.1 d.2.2 k (ops.ofId j)
    let t ← sharesFor ops k j rest
    .ok ((d.1, v) :: t)

/-- Modelled from the spec: §4.5 — each participant listed in `sub` folds the
shares it received from all dealers by field addition. -/
def foldedShares {T : Type} (ops : FieldOps T) (dealers : List (ℕ × T × List T)) (k : ℕ) :
    List ℕ → Except RErr (List T)
  | [] => .ok []
  | j :: rest => do
    let sh ← sharesFor ops k j dealers
    let t ← foldedShares ops dealers k rest
    .ok (foldSum ops sh :: t)

/-- Modelled from the spec: §4.5 reconstruction — compute `weightsAt` for the
subset `sub` and return `Σ_{i in sub} weight_i * foldedShare_i` (the source
inlines this sum for two-element subsets). -/
def reconProtocol {T : Type} [DecidableEq T] (ops : FieldOps T)
    (dealers : List (ℕ × T × List T)) (k : ℕ) (sub : List ℕ) : Except RErr T := do
  let ws ← phis ops sub
  let folded ← foldedShares ops dealers k sub
  .ok (((ws.zip folded).map (fun p => ops.mul p.1.2 p.2)).foldl ops.add ops.zero)

/-- The polynomial `P(x) = secret + Σ_{t=0}^{k-2} coefficients[t] * x^(t+1)`
a dealer's `make_poly(k)` closure evaluates (spec §4.3), as a `Polynomial`. -/
noncomputable def dealerPoly (F : Type) [Field F] (s : F) (c : List F) (k : ℕ) : Polynomial F :=
  Polynomial.C s +
    ∑ t ∈ Finset.range (k - 1), Polynomial.C (c.getD t 0) * Polynomial.X ^ (t + 1)

/-! ## ModCom: the binomial table (src/lib.rs:205) -/

/-- Checked vector read: `l[i]` with the Rust out-of-bounds panic. -/
def getC (l : List ℕ) (i : ℕ) : Option ℕ := l.get? i

/-- Checked vector write: `l[i] = v` with the Rust out-of-bounds panic. -/
def setC (l : List ℕ) (i v : ℕ) : Option (List ℕ) :=
  if i < l.length then some (l.set i v) else none

/-- The `for i in 2..cap` loop of `ModCom::new` (lib.rs:220): the first `ℕ`
argument counts the remaining iterations (initially `cap - 2`), the second is
the loop index `i`; the state is the three vectors `fac`, `inv`, `finv`. -/
def buildLoop (M : ℕ) : ℕ → ℕ → List ℕ → List ℕ → List ℕ →
    Option (List ℕ × List ℕ × List ℕ)
  | 0, _, fac, inv, finv => some (fac, inv, finv)
  | left+1, i, fac, inv, finv => do
    let f1 ← getC fac (i - 1)
    let fac2 ← setC fac i (f1 * i % M)
    let v1 ← getC inv (M % i)
    let inv2 ← setC inv i (M - v1 * (M / i) % M)
    let g1 ← getC finv (i - 1)
    let v2 ← getC inv2 i
    let finv2 ← setC finv i (g1 * v2 % M)
    buildLoop M left (i + 1) fac2 inv2 finv2

/-- `ModCom` (lib.rs:205): the retained factorial and inverse-factorial
tables. -/
structure ModCom where
  fac : List ℕ
  finv : List ℕ

/-- `ModCom::new` (lib.rs:211): three zeroed vectors of length `cap`, explicit
seeding of the entries `0` and `1` (in source order), then the loop from 2. -/
def ModCom.new (M cap : ℕ) : Option ModCom := do
  let fac0 := List.replicate cap 0
  let finv0 := List.replicate cap 0
  let inv0 := List.replicate cap 0
  let fac1 ← setC fac0 0 1
  let fac2 ← setC fac1 1 1
  let finv1 ← setC finv0 0 1
  let finv2 ← setC finv1 1 1
  let inv1 ← setC inv0 1 1
  let r ← buildLoop M (cap - 2) 2 fac2 inv1 finv2
  some ⟨r.1, r.2.2⟩

/-- `ModCom::com` (lib.rs:229): `0` when `n < k`, otherwise
`fac[n] * (finv[k] * finv[n-k] % MOD) % MOD` with unchecked indexing. -/
def ModCom.com (M : ℕ) (t : ModCom) (n k : ℕ) : Option ℕ :=
  if n < k then some 0
  else do
    let a ← getC t.fac n
    let b ← getC t.finv k
    let c ← getC t.finv (n - k)
    some (a * (b * c % M) % M)

/-- Reference recursion for the `fac` entries of `buildLoop`. -/
def facRec (M : ℕ) : ℕ → ℕ
  | 0 => 1
  | 1 => 1
  | n+2 => facRec M (n + 1) * (n + 2) % M

/-- Reference recursion for the `inv` entries of `buildLoop`. -/
def invRec (M : ℕ) : ℕ → ℕ
  | 0 => 0
  | 1 => 1
  | i+2 => M - invRec M (M % (i + 2)) * (M / (i + 2)) % M
termination_by i => i
decreasing_by exact Nat.mod_lt _ (by omega)

/-- Reference recursion for the `finv` entries of `buildLoop`. -/
def finvRec (M : ℕ) : ℕ → ℕ
  | 0 => 1
  | 1 => 1
  | i+2 => finvRec M (i + 1) * invRec M (i + 2) % M

/-! # Theorems -/

/-! ## Square-and-multiply exponentiation -/

lemma powLoop_n0 (M : ℕ) (fuel v r : ℕ) : powLoop M fuel v r 0 = r := by
  cases fuel <;> simp [powLoop]

lemma powLoop_lt (M : ℕ) (hM : 0 < M) :
    ∀ fuel n v r, 1 ≤ n → n ≤ fuel → powLoop M fuel v r n < M := by
  intro fuel
  induction fuel with
  | zero => intro n v r h1 h2; omega
  | succ f ih =>
    intro n v r h1 h2
    rw [powLoop]
    rw [if_neg (by omega : ¬ n = 0)]
    rcases Nat.lt_or_ge n 2 with h | h
    · have hn1 : n = 1 := by omega
      subst hn1
      rw [powLoop_n0]
      simpa using Nat.mod_lt (r * v) hM
    · exact ih (n / 2) _ _ (by omega) (by omega)

lemma powLoop_cast (M : ℕ) :
    ∀ fuel n v r, n ≤ fuel →
      ((powLoop M fuel v r n : ℕ) : ZMod M) = (r : ZMod M) * (v : ZMod M) ^ n := by
  intro fuel
  induction fuel with
  | zero =>
    intro n v r hn
    have h0 : n = 0 := by omega
    subst h0
    simp [powLoop]
  | succ f ih =>
    intro n v r hn
    by_cases h0 : n = 0
    · subst h0; simp [powLoop]
    · rw [powLoop, if_neg h0, ih (n / 2) _ _ (by omega)]
      have hv : (((v * v) % M : ℕ) : ZMod M) ^ (n / 2) = (v : ZMod M) ^ (2 * (n / 2)) := by
        rw [ZMod.natCast_mod, Nat.cast_mul, ← pow_two, ← pow_mul]
      by_cases hodd : n % 2 = 1
      · rw [if_pos hodd, hv, ZMod.natCast_mod, Nat.cast_mul, mul_assoc, ← pow_succ']
        rw [show 2 * (n / 2) + 1 = n by omega]
      · rw [if_neg hodd, hv]
        rw [show 2 * (n / 2) = n by omega]

lemma pow_u_cast (M a n : ℕ) : ((pow_u M a n : ℕ) : ZMod M) = (a : ZMod M) ^ n := by
  unfold pow_u
  rw [powLoop_cast M n n a 1 le_rfl, Nat.cast_one, one_mul]

lemma pow_u_lt (M a n : ℕ) (hM : 2 ≤ M) : pow_u M a n < M := by
  unfold pow_u
  rcases Nat.eq_zero_or_pos n with h | h
  · subst h; rw [powLoop_n0]; omega
  · exact powLoop_lt M (by omega) n n a 1 h le_rfl

lemma minv_mul {p : ℕ} (hp : Nat.Prime p) {a : ℕ} (h0 : 0 < a) (ha : a < p) :
    mmul p a (minv p a) = 1 := by
  haveI : Fact (Nat.Prime p) := ⟨hp⟩
  haveI : Fact (1 < p) := ⟨hp.one_lt⟩
  have h2 : 2 ≤ p := hp.two_le
  have hlt : mmul p a (minv p a) < p := Nat.mod_lt _ (by omega)
  have hcast : ((mmul p a (minv p a) : ℕ) : ZMod p) = 1 := by
    unfold mmul minv
    rw [ZMod.natCast_mod, Nat.cast_mul, pow_u_cast]
    have hane : (a : ZMod p) ≠ 0 := by
      rw [Ne, ZMod.natCast_zmod_eq_zero_iff_dvd]
      intro hdvd
      have := Nat.le_of_dvd h0 hdvd
      omega
    have hstep : (a : ZMod p) * (a : ZMod p) ^ (p - 2) = (a : ZMod p) ^ (p - 1) := by
      rw [← pow_succ']
      congr 1
      omega
    rw [hstep, ZMod.pow_card_sub_one_eq_one hane]
  have hv := congrArg ZMod.val hcast
  rwa [ZMod.val_cast_of_lt hlt, ZMod.val_one] at hv

lemma powLoop_zeroVal (M : ℕ) :
    ∀ fuel n r, 1 ≤ n → n ≤ fuel → powLoop M fuel 0 r n = 0 := by
  intro fuel
  induction fuel with
  | zero => intro n r h1 h2; omega
  | succ f ih =>
    intro n r h1 h2
    rw [powLoop, if_neg (by omega : ¬ n = 0)]
    rcases Nat.lt_or_ge n 2 with h | h
    · have hn1 : n = 1 := by omega
      subst hn1
      rw [powLoop_n0]
      simp
    · rw [show (0 * 0) % M = 0 by simp]
      exact ih (n / 2) _ (by omega) (by omega)

lemma minv_zeroVal {M : ℕ} (hM : 3 ≤ M) : minv M 0 = 0 := by
  unfold minv pow_u
  exact powLoop_zeroVal M (M - 2) (M - 2) 1 (by omega) le_rfl

lemma msub_lt {M a b : ℕ} (ha : a < M) (hb : b < M) : msub M a b < M := by
  unfold msub
  rw [Nat.mod_eq_of_lt hb]
  split <;> omega

/-! ## Claim C3 (division-by-zero error handling) — corrected -/

/-- **C3, counterexample**: the claim states that `invert(0)` fails with a
DivisionByZero error and does not return a value; but `ModInt::inv` has no
zero check — at `MOD = 17` it computes `0^15 mod 17` and returns the value
`0`. -/
theorem C3_counterexample : minv 17 0 = 0 := by decide

/-- **C3, amended**: for every field element `a`, `divide(a, 0)` fails with a
DivisionByZero error; `invert(0)` does not fail — for `MOD ≥ 3` it returns the
value `0` (computed as `0^(MOD-2) mod MOD`). -/
theorem C3_div_by_zero_amended (M a : ℕ) :
    mdiv M a 0 = .error RErr.divisionByZero ∧ (3 ≤ M → minv M 0 = 0) :=
  ⟨rfl, fun h => minv_zeroVal h⟩

/-- **C3, witness**: the amended claim at `MOD = 17`, `a = 5`. -/
theorem C3_witness : mdiv 17 5 0 = .error RErr.divisionByZero ∧ minv 17 0 = 0 :=
  ⟨(C3_div_by_zero_amended 17 5).1, (C3_div_by_zero_amended 17 5).2 (by decide)⟩

/-! ## Claim C4 (field element range invariant) — corrected -/

/-- **C4, counterexample**: the claim states that every constructor, including
`from_str_radix`, produces a value in `[0, MOD)`; but `from_str_radix` stores
the parsed integer without reduction: parsing `"20"` at `MOD = 17` yields the
out-of-range value `20`. -/
theorem C4_counterexample : from_str_radix 17 20 = 20 ∧ ¬ from_str_radix 17 20 < 17 :=
  ⟨rfl, by decide⟩

/-- **C4, amended**: `new` and the `From<I>` conversion produce values in
`[0, MOD)` (while `from_str_radix` stores the parsed value unreduced), and for
`MOD ≥ 2` and operands already in `[0, MOD)` the results of add, subtract,
multiply, pow and (for a nonzero divisor) divide are again in `[0, MOD)`. -/
theorem C4_range_amended (M a b n : ℕ) (hM : 2 ≤ M) (ha : a < M) (hb : b < M) :
    mnew M n < M ∧ mfrom M n < M ∧ madd M a b < M ∧ msub M a b < M ∧
    mmul M a b < M ∧ pow_u M a n < M ∧
    (b ≠ 0 → mdiv M a b = .ok (mmul M a (minv M b)) ∧ mmul M a (minv M b) < M) := by
  refine ⟨Nat.mod_lt _ (by omega), Nat.mod_lt _ (by omega), Nat.mod_lt _ (by omega),
    msub_lt ha hb, Nat.mod_lt _ (by omega), pow_u_lt M a n hM, fun hb0 => ?_⟩
  unfold mdiv
  rw [if_neg hb0]
  exact ⟨rfl, Nat.mod_lt _ (by omega)⟩

/-- **C4, witness**: the amended claim at `MOD = 17`, `a = 5`, `b = 9`,
`n = 20`. -/
theorem C4_witness :
    mnew 17 20 < 17 ∧ mfrom 17 20 < 17 ∧ madd 17 5 9 < 17 ∧ msub 17 5 9 < 17 ∧
    mmul 17 5 9 < 17 ∧ pow_u 17 5 20 < 17 ∧
    (mdiv 17 5 9 = .ok (mmul 17 5 (minv 17 9)) ∧ mmul 17 5 (minv 17 9) < 17) := by
  have h := C4_range_amended 17 5 9 20 (by decide) (by decide) (by decide)
  exact ⟨h.1, h.2.1, h.2.2.1, h.2.2.2.1, h.2.2.2.2.1, h.2.2.2.2.2.1,
    h.2.2.2.2.2.2 (by decide)⟩

/-! ## Claim C5 (inverse correctness) — confirmed -/

/-- **C5**: with `MOD` prime, for every nonzero field element `a` in
`[0, MOD)`, `multiply(a, invert(a))` equals the multiplicative identity, where
`invert(a)` is `a^(MOD-2) mod MOD` by square-and-multiply exponentiation. -/
theorem C5_inverse_correct (p a : ℕ) (hp : Nat.Prime p) (h0 : 0 < a) (ha : a < p) :
    mmul p a (minv p a) = 1 :=
  minv_mul hp h0 ha

/-- **C5, witness**: the claim at `p = 17`, `a = 3`. -/
theorem C5_witness : mmul 17 3 (minv 17 3) = 1 :=
  C5_inverse_correct 17 3 (by norm_num) (by decide) (by decide)

/-! ## The field instantiation: unfolding lemmas -/

@[simp] lemma fieldOps_zero (F : Type) [Field F] [DecidableEq F] : (fieldOps F).zero = 0 := rfl

@[simp] lemma fieldOps_one (F : Type) [Field F] [DecidableEq F] : (fieldOps F).one = 1 := rfl

@[simp] lemma fieldOps_add (F : Type) [Field F] [DecidableEq F] (a b : F) :
    (fieldOps F).add a b = a + b := rfl

@[simp] lemma fieldOps_sub (F : Type) [Field F] [DecidableEq F] (a b : F) :
    (fieldOps F).sub a b = a - b := rfl

@[simp] lemma fieldOps_mul (F : Type) [Field F] [DecidableEq F] (a b : F) :
    (fieldOps F).mul a b = a * b := rfl

@[simp] lemma fieldOps_ofId (F : Type) [Field F] [DecidableEq F] (n : ℕ) :
    (fieldOps F).ofId n = (n : F) := rfl

lemma fieldOps_div (F : Type) [Field F] [DecidableEq F] (a b : F) (hb : b ≠ 0) :
    (fieldOps F).div a b = .ok (a / b) := by
  simp [fieldOps, hb]

lemma exceptBindOk {ε α β : Type} (a : α) (f : α → Except ε β) :
    (Except.ok (ε := ε) a >>= f) = f a := rfl

lemma exceptMapOk {ε α β : Type} (f : α → β) (a : α) :
    Except.map (ε := ε) f (Except.ok a) = Except.ok (f a) := rfl

lemma exceptBindErr {ε α β : Type} (e : ε) (f : α → Except ε β) :
    ((Except.error e : Except ε α) >>= f) = .error e := rfl

/-! ## Polynomial evaluation (the `make_poly` closure) -/

lemma polyEvalGo_ok (F : Type) [Field F] [DecidableEq F] (rands : List F) (x : F) :
    ∀ left i (res xn : F), i + left ≤ rands.length →
      polyEvalGo (fieldOps F) rands x left i res xn =
        .ok (res + ∑ t ∈ Finset.range left, rands.getD (i + t) 0 * (xn * x ^ t)) := by
  intro left
  induction left with
  | zero => intro i res xn _; simp [polyEvalGo]
  | succ l ih =>
    intro i res xn hlen
    have hi : i < rands.length := by omega
    rw [polyEvalGo]
    split
    · next heq =>
      rw [List.get?_eq_get hi] at heq
      cases heq
    · next c heq =>
      rw [List.get?_eq_get hi] at heq
      have hc : c = rands.get ⟨i, hi⟩ := (Option.some.injEq _ _ ▸ heq).symm
      rw [ih (i + 1) _ _ (by omega)]
      have hgetD : rands.getD i 0 = rands.get ⟨i, hi⟩ := by
        rw [List.getD_eq_get?, List.get?_eq_get hi, Option.getD_some]
      have hsum : ∑ t ∈ Finset.range l, rands.getD (i + 1 + t) 0 * (xn * x * x ^ t) =
          ∑ t ∈ Finset.range l, rands.getD (i + (t + 1)) 0 * (xn * x ^ (t + 1)) := by
        refine Finset.sum_congr rfl fun t _ => ?_
        rw [show i + 1 + t = i + (t + 1) by omega, pow_succ']
        ring
      simp only [fieldOps_add, fieldOps_mul]
      congr 1
      rw [Finset.sum_range_succ', ← hsum]
      simp only [pow_zero, mul_one, Nat.add_zero]
      rw [hgetD, ← hc]
      ring

lemma polyEval_ok (F : Type) [Field F] [DecidableEq F] (s : F) (rands : List F) (k : ℕ)
    (x : F) (hlen : k - 1 ≤ rands.length) :
    polyEval (fieldOps F) s rands k x =
      .ok (s + ∑ t ∈ Finset.range (k - 1), rands.getD t 0 * x ^ (t + 1)) := by
  unfold polyEval
  rw [polyEvalGo_ok F rands x (k - 1) 0 s x (by omega)]
  have hsum : ∑ t ∈ Finset.range (k - 1), rands.getD (0 + t) 0 * (x * x ^ t) =
      ∑ t ∈ Finset.range (k - 1), rands.getD t 0 * x ^ (t + 1) := by
    refine Finset.sum_congr rfl fun t _ => ?_
    rw [Nat.zero_add, pow_succ']
  rw [hsum]

lemma lookup_insertShare {T : Type} (l : List (ℕ × T)) (key : ℕ) (v : T) :
    List.lookup key (insertShare l key v) = some v := by
  induction l with
  | nil => simp [insertShare, List.lookup]
  | cons kv rest ih =>
    rcases kv with ⟨k0, v0⟩
    rw [insertShare]
    by_cases h : k0 = key
    · rw [if_pos h]
      simp [List.lookup]
    · rw [if_neg h]
      have : (key == k0) = false := by
        simp only [beq_eq_false_iff_ne, Ne]
        exact fun he => h he.symm
      simp [List.lookup, this, ih]

/-! ## Claim C7 (polynomial generation) — confirmed -/

/-- **C7**: for every participant with secret `s`, coefficient list of length
at least `k-1` and `k ≥ 1`, the polynomial built by `make_poly(k)` evaluates at
any `x` to `s + Σ_{i=0}^{k-2} rands[i] * x^(i+1)`, and after `make_poly` the
participant's shares map holds, under its own id, that polynomial's value at
its own id. -/
theorem C7_make_poly (F : Type) [Field F] [DecidableEq F] (pl : Player F) (k : ℕ)
    (hk : 1 ≤ k) (hlen : k - 1 ≤ pl.rands.length) :
    (∀ x : F, polyEval (fieldOps F) pl.secret pl.rands k x =
      .ok (pl.secret + ∑ t ∈ Finset.range (k - 1), pl.rands.getD t 0 * x ^ (t + 1))) ∧
    (Player.make_poly (fieldOps F) pl k).map (fun pl2 => List.lookup pl.id pl2.shares) =
      .ok (some (pl.secret +
        ∑ t ∈ Finset.range (k - 1), pl.rands.getD t 0 * ((pl.id : ℕ) : F) ^ (t + 1))) := by
  refine ⟨fun x => polyEval_ok F pl.secret pl.rands k x hlen, ?_⟩
  unfold Player.make_poly
  rw [fieldOps_ofId, polyEval_ok F pl.secret pl.rands k _ hlen, exceptBindOk, exceptMapOk]
  rw [lookup_insertShare]

/-- **C7, witness**: the claim at `F = ℚ`, a participant with id 1, secret 2,
coefficients `[5]`, threshold `k = 2`, evaluation point `x = 3`. -/
theorem C7_witness :
    polyEval (fieldOps ℚ) (Player.new (fieldOps ℚ) 1 2 [5]).secret
        (Player.new (fieldOps ℚ) 1 2 [5]).rands 2 3 =
      .ok ((Player.new (fieldOps ℚ) 1 2 [5]).secret +
        ∑ t ∈ Finset.range (2 - 1),
          (Player.new (fieldOps ℚ) 1 2 [5]).rands.getD t 0 * (3 : ℚ) ^ (t + 1)) :=
  (C7_make_poly ℚ (Player.new (fieldOps ℚ) 1 2 [5]) 2 (by decide) (by simp [Player.new])).1 3

/-! ## Claim C8 (prerequisite-state failure semantics) — corrected -/

/-- **C8, counterexample**: the claim states that `foldShares` called before
any shares have been received fails rather than silently producing a default;
but `fold_share` simply applies the reduction to the (empty) shares map: with
the additive fold of `add_simulation`, a freshly created player's
`fold_share` silently stores the default value `0`. -/
theorem C8_counterexample :
    ((Player.new (modOps 17) 1 2 [5]).fold_share (foldSum (modOps 17))).folded = 0 := rfl

/-- **C8, amended**: `give_share` called before `make_poly` fails (the
`unwrap` of the absent polynomial panics), and so does `recieve_share`
against such a participant; but `fold_share` never fails: called before any
shares are received it silently stores the reduction of the empty map (the
fold's initial value — e.g. zero for the additive fold). -/
theorem C8_prerequisites_amended (T : Type) (ops : FieldOps T) (id oid : ℕ) (s : T)
    (rands : List T) (other : Player T) :
    Player.give_share ops (Player.new ops id s rands) oid = .error RErr.unwrapPanic ∧
    Player.recieve_share ops other (Player.new ops id s rands) = .error RErr.unwrapPanic ∧
    ∀ method : List (ℕ × T) → T,
      ((Player.new ops id s rands).fold_share method).folded = method [] :=
  ⟨rfl, rfl, fun _ => rfl⟩

/-! ## Claim C1 (multiplication protocol, concrete) — confirmed -/

/-- **C1**: over modulus 17 with secrets `x = 2`, `y = 4` shared under
threshold 2 among participants `{1,2,3}` (first-round coefficients `[5]` and
`[3]`, resharing coefficients `[7]`, `[9]`, `[11]`), the two-round resharing
protocol of `mul_simulation` reconstructs `(x*y) mod 17 = 8` from each of the
three 2-of-3 subsets. -/
theorem C1_mul_protocol : mulSim = .ok (8, 8, 8) := rfl

/-! ## The `phis` loops, characterized over an exact field -/

lemma phisLoop_invalid (F : Type) [Field F] [DecidableEq F] (iv : ℕ) (p : F) :
    ∀ (pairs : List (ℕ × ℕ)) (r : F),
      (∃ jq ∈ pairs, jq.1 ≠ iv ∧ p = ((jq.2 : ℕ) : F)) →
      phisLoop (fieldOps F) iv p pairs r = .error RErr.invalidParticipants := by
  intro pairs
  induction pairs with
  | nil =>
    rintro r ⟨jq, hmem, _⟩
    simp at hmem
  | cons hd tl ih =>
    rintro r ⟨jq, hmem, hne, heq⟩
    rcases hd with ⟨j, q⟩
    rw [phisLoop]
    simp only [fieldOps_ofId, fieldOps_sub, fieldOps_zero]
    by_cases hij : iv = j
    · rw [if_pos hij]
      refine ih r ⟨jq, ?_, hne, heq⟩
      rcases List.mem_cons.mp hmem with h | h
      · exact absurd (by rw [h]; exact hij.symm) hne
      · exact h
    · rw [if_neg hij]
      by_cases hpq : p = ((q : ℕ) : F)
      · rw [if_pos hpq]
      · rw [if_neg hpq]
        have hd0 : p - ((q : ℕ) : F) ≠ 0 := sub_ne_zero.mpr hpq
        rw [fieldOps_div F _ _ hd0, exceptBindOk]
        refine ih _ ⟨jq, ?_, hne, heq⟩
        rcases List.mem_cons.mp hmem with h | h
        · exact absurd (by rw [h] at heq; exact heq) hpq
        · exact h

lemma phisLoop_ok (F : Type) [Field F] [DecidableEq F] (iv : ℕ) (p : F) :
    ∀ (pairs : List (ℕ × ℕ)) (r : F),
      (∀ jq ∈ pairs, jq.1 ≠ iv → p ≠ ((jq.2 : ℕ) : F)) →
      phisLoop (fieldOps F) iv p pairs r =
        .ok (r * (pairs.map (fun jq =>
          if jq.1 = iv then 1
          else (0 - ((jq.2 : ℕ) : F)) / (p - ((jq.2 : ℕ) : F)))).prod) := by
  intro pairs
  induction pairs with
  | nil => intro r _; simp [phisLoop]
  | cons hd tl ih =>
    intro r hno
    rcases hd with ⟨j, q⟩
    rw [phisLoop]
    simp only [fieldOps_ofId, fieldOps_sub, fieldOps_zero, fieldOps_mul]
    by_cases hij : iv = j
    · rw [if_pos hij, ih r (fun jq hm hne => hno jq (List.mem_cons_of_mem _ hm) hne)]
      rw [List.map_cons, List.prod_cons, if_pos hij.symm, one_mul]
    · have hjne : (j ≠ iv) := fun hji => hij hji.symm
      have hpq : p ≠ ((q : ℕ) : F) := hno (j, q) (List.mem_cons_self _ _) hjne
      rw [if_neg hij, if_neg hpq]
      have hd0 : p - ((q : ℕ) : F) ≠ 0 := sub_ne_zero.mpr hpq
      rw [fieldOps_div F _ _ hd0, exceptBindOk,
        ih _ (fun jq hm hne => hno jq (List.mem_cons_of_mem _ hm) hne)]
      rw [List.map_cons, List.prod_cons, if_neg hjne, mul_assoc]

lemma phisOuter_ok (F : Type) [Field F] [DecidableEq F] (all : List (ℕ × ℕ)) :
    ∀ rest : List (ℕ × ℕ),
      (∀ ip ∈ rest, ∀ jq ∈ all, jq.1 ≠ ip.1 → ((ip.2 : ℕ) : F) ≠ ((jq.2 : ℕ) : F)) →
      phisOuter (fieldOps F) all rest =
        .ok (rest.map (fun ip => (ip.2, (all.map (fun jq =>
          if jq.1 = ip.1 then 1
          else (0 - ((jq.2 : ℕ) : F)) / (((ip.2 : ℕ) : F) - ((jq.2 : ℕ) : F)))).prod))) := by
  intro rest
  induction rest with
  | nil => intro _; simp [phisOuter]
  | cons hd tl ih =>
    intro hno
    rcases hd with ⟨i0, pid⟩
    rw [phisOuter]
    simp only [fieldOps_ofId, fieldOps_one]
    rw [phisLoop_ok F i0 ((pid : ℕ) : F) all 1
      (fun jq hm hne => hno (i0, pid) (List.mem_cons_self _ _) jq hm hne)]
    rw [exceptBindOk, ih (fun ip hm => hno ip (List.mem_cons_of_mem _ hm)), exceptBindOk]
    rw [List.map_cons, one_mul]

lemma phisOuter_invalid (F : Type) [Field F] [DecidableEq F] (all : List (ℕ × ℕ)) :
    ∀ rest : List (ℕ × ℕ),
      (∃ ip ∈ rest, ∃ jq ∈ all, jq.1 ≠ ip.1 ∧ ((ip.2 : ℕ) : F) = ((jq.2 : ℕ) : F)) →
      phisOuter (fieldOps F) all rest = .error RErr.invalidParticipants := by
  intro rest
  induction rest with
  | nil =>
    rintro ⟨ip, hmem, _⟩
    simp at hmem
  | cons hd tl ih =>
    rintro ⟨ip, hmem, jq, hjq, hne, heq⟩
    rcases hd with ⟨i0, pid⟩
    rw [phisOuter]
    simp only [fieldOps_ofId, fieldOps_one]
    by_cases hc : ∃ jq2 ∈ all, jq2.1 ≠ i0 ∧ ((pid : ℕ) : F) = ((jq2.2 : ℕ) : F)
    · rw [phisLoop_invalid F i0 ((pid : ℕ) : F) all 1 hc, exceptBindErr]
    · push_neg at hc
      rw [phisLoop_ok F i0 ((pid : ℕ) : F) all 1 hc, exceptBindOk]
      rcases List.mem_cons.mp hmem with h | h
      · exfalso
        subst h
        exact absurd heq (hc jq hjq hne)
      · rw [ih ⟨ip, h, jq, hjq, hne, heq⟩, exceptBindErr]

/-! ## Bridges between enumerated lists, `List.ofFn` and `Fin`-indexed sums -/

lemma enumFrom_map_ofFn {α β : Type} (g : ℕ × α → β) :
    ∀ (xs : List α) (s : ℕ),
      (xs.enumFrom s).map g = List.ofFn (fun i : Fin xs.length => g (s + i.1, xs.get i)) := by
  intro xs
  induction xs with
  | nil => intro s; simp
  | cons a t ih =>
    intro s
    have hfun : (fun i : Fin t.length => g (s + (i.succ : Fin (t.length + 1)).1,
        (a :: t).get i.succ)) = fun i : Fin t.length => g (s + 1 + i.1, t.get i) := by
      funext i
      have h1 : s + (i.1 + 1) = s + 1 + i.1 := by omega
      simp [h1]
    rw [List.enumFrom, List.map_cons, ih (s + 1), List.ofFn_succ, hfun]
    simp

lemma enum_map_ofFn {α β : Type} (g : ℕ × α → β) (xs : List α) :
    xs.enum.map g = List.ofFn (fun i : Fin xs.length => g (i.1, xs.get i)) := by
  have h := enumFrom_map_ofFn g xs 0
  simpa using h

lemma ofFn_zip_ofFn {α β : Type} :
    ∀ (n : ℕ) (f : Fin n → α) (g : Fin n → β),
      (List.ofFn f).zip (List.ofFn g) = List.ofFn (fun i => (f i, g i)) := by
  intro n
  induction n with
  | zero => intro f g; simp
  | succ m ih =>
    intro f g
    rw [List.ofFn_succ, List.ofFn_succ, List.ofFn_succ, List.zip_cons_cons, ih]

lemma foldl_add_sum {F : Type} [Field F] :
    ∀ (l : List F) (a : F), l.foldl (· + ·) a = a + l.sum := by
  intro l
  induction l with
  | nil => intro a; simp
  | cons x t ih => intro a; simp [ih, add_assoc]

lemma prod_ite_erase {F : Type} [Field F] {n : ℕ} (i : Fin n) (g : Fin n → F) :
    (∏ j : Fin n, if j = i then 1 else g j) = ∏ j ∈ Finset.univ.erase i, g j := by
  have h1 : (∏ j ∈ Finset.univ.erase i, (if j = i then (1 : F) else g j)) =
      ∏ j ∈ (Finset.univ : Finset (Fin n)), (if j = i then (1 : F) else g j) :=
    Finset.prod_erase _ (by simp)
  rw [← h1]
  exact Finset.prod_congr rfl fun j hj => if_neg (Finset.mem_erase.mp hj).1

lemma phis_ok_of_injective (F : Type) [Field F] [DecidableEq F] (xs : List ℕ)
    (hinj : ∀ i j : Fin xs.length, i ≠ j → ((xs.get i : ℕ) : F) ≠ ((xs.get j : ℕ) : F)) :
    phis (fieldOps F) xs = .ok (List.ofFn (fun i : Fin xs.length =>
      (xs.get i, ∏ j ∈ Finset.univ.erase i,
        (0 - ((xs.get j : ℕ) : F)) / (((xs.get i : ℕ) : F) - ((xs.get j : ℕ) : F))))) := by
  have henum : xs.enum = List.ofFn (fun i : Fin xs.length => (i.1, xs.get i)) := by
    have h := enum_map_ofFn (fun a => a) xs
    simpa using h
  have hno : ∀ ip ∈ xs.enum, ∀ jq ∈ xs.enum, jq.1 ≠ ip.1 →
      ((ip.2 : ℕ) : F) ≠ ((jq.2 : ℕ) : F) := by
    intro ip hip jq hjq hne
    rw [henum] at hip hjq
    rcases (List.mem_ofFn _ _).mp hip with ⟨i, hi⟩
    rcases (List.mem_ofFn _ _).mp hjq with ⟨j, hj⟩
    rw [← hi, ← hj]
    rw [← hi, ← hj] at hne
    exact Ne.symm (hinj j i (fun hji => hne (congrArg Fin.val hji)))
  unfold phis
  rw [phisOuter_ok F xs.enum xs.enum hno]
  rw [enum_map_ofFn]
  apply congrArg Except.ok
  apply congrArg List.ofFn
  funext i
  refine congrArg (fun w => (xs.get i, w)) ?_
  rw [enum_map_ofFn]
  rw [List.prod_ofFn]
  have hcond : ∀ j : Fin xs.length, (j.1 = i.1) = (j = i) := by
    intro j
    exact propext Fin.val_inj
  simp only [hcond]
  exact prod_ite_erase i _

lemma phis_invalid_of_dup (F : Type) [Field F] [DecidableEq F] (xs : List ℕ)
    (h : ∃ i j : Fin xs.length, i ≠ j ∧ ((xs.get i : ℕ) : F) = ((xs.get j : ℕ) : F)) :
    phis (fieldOps F) xs = .error RErr.invalidParticipants := by
  have henum : xs.enum = List.ofFn (fun i : Fin xs.length => (i.1, xs.get i)) := by
    have hh := enum_map_ofFn (fun a => a) xs
    simpa using hh
  rcases h with ⟨i, j, hne, heq⟩
  unfold phis
  apply phisOuter_invalid
  refine ⟨(i.1, xs.get i), ?_, (j.1, xs.get j), ?_, ?_, heq⟩
  · rw [henum]; exact (List.mem_ofFn _ _).mpr ⟨i, rfl⟩
  · rw [henum]; exact (List.mem_ofFn _ _).mpr ⟨j, rfl⟩
  · exact fun hv => hne (Fin.val_inj.mp hv).symm

/-! ## Claim C6 (Lagrange weight computation) — confirmed -/

/-- **C6**: for every list of evaluation points whose field images are pairwise
distinct, `phis` returns a mapping whose keys are exactly the input ids (in
order) and whose value for point `p_i` is `Π_{j≠i} (0 - p_j) / (p_i - p_j)` in
the field; whenever two distinct positions hold equal points it fails with an
InvalidParticipants error instead of dividing — in particular
`phis {1,1}` (over `ModInt<17>`) fails with InvalidParticipants. -/
theorem C6_lagrange_weights (F : Type) [Field F] [DecidableEq F] (xs : List ℕ) :
    (Function.Injective (fun i : Fin xs.length => ((xs.get i : ℕ) : F)) →
      phis (fieldOps F) xs = .ok (List.ofFn (fun i : Fin xs.length =>
        (xs.get i, ∏ j ∈ Finset.univ.erase i,
          (0 - ((xs.get j : ℕ) : F)) / (((xs.get i : ℕ) : F) - ((xs.get j : ℕ) : F)))))) ∧
    ((∃ i j : Fin xs.length, i ≠ j ∧ ((xs.get i : ℕ) : F) = ((xs.get j : ℕ) : F)) →
      phis (fieldOps F) xs = .error RErr.invalidParticipants) ∧
    phis (modOps 17) [1, 1] = .error RErr.invalidParticipants := by
  refine ⟨fun hinj => phis_ok_of_injective F xs (fun i j hne hval => hne (hinj hval)),
    fun h => phis_invalid_of_dup F xs h, rfl⟩

/-- **C6, witness**: over `F = ℚ`, the points `[1, 2]` (distinct images) get
their Lagrange weights, and the points `[2, 2]` (a duplicate) fail with
InvalidParticipants. -/
theorem C6_witness :
    phis (fieldOps ℚ) [1, 2] = .ok (List.ofFn (fun i : Fin 2 =>
      (([1, 2] : List ℕ).get i, ∏ j ∈ Finset.univ.erase i,
        (0 - ((([1, 2] : List ℕ).get j : ℕ) : ℚ)) /
          (((([1, 2] : List ℕ).get i : ℕ) : ℚ) - ((([1, 2] : List ℕ).get j : ℕ) : ℚ))))) ∧
    phis (fieldOps ℚ) [2, 2] = .error RErr.invalidParticipants := by
  constructor
  · refine (C6_lagrange_weights ℚ [1, 2]).1 ?_
    intro a b hab
    fin_cases a <;> fin_cases b <;> simp_all <;> norm_num at hab
  · exact (C6_lagrange_weights ℚ [2, 2]).2.1 ⟨⟨0, by decide⟩, ⟨1, by decide⟩, by decide, rfl⟩

/-! ## The general additive protocol (claim C2) -/

lemma dealerPoly_eval {F : Type} [Field F] (s : F) (c : List F) (k : ℕ) (x : F) :
    (dealerPoly F s c k).eval x =
      s + ∑ t ∈ Finset.range (k - 1), c.getD t 0 * x ^ (t + 1) := by
  simp [dealerPoly, Polynomial.eval_finset_sum]

lemma dealerPoly_degree_lt {F : Type} [Field F] (s : F) (c : List F) (k : ℕ) (hk : 1 ≤ k) :
    (dealerPoly F s c k).degree < (k : ℕ) := by
  unfold dealerPoly
  apply lt_of_le_of_lt (Polynomial.degree_add_le _ _)
  rw [max_lt_iff]
  constructor
  · apply lt_of_le_of_lt Polynomial.degree_C_le
    exact_mod_cast WithBot.coe_lt_coe.mpr (by omega : (0 : ℕ) < k)
  · apply lt_of_le_of_lt (Polynomial.degree_sum_le _ _)
    rw [Finset.sup_lt_iff (by exact_mod_cast WithBot.bot_lt_coe k)]
    intro t ht
    apply lt_of_le_of_lt (Polynomial.degree_C_mul_X_pow_le _ _)
    have htk : t + 1 < k := by
      have := Finset.mem_range.mp ht
      omega
    exact_mod_cast WithBot.coe_lt_coe.mpr htk

lemma list_sum_degree_lt {F : Type} [Field F] (D : WithBot ℕ) (hD : ⊥ < D) :
    ∀ l : List (Polynomial F), (∀ p ∈ l, p.degree < D) → l.sum.degree < D := by
  intro l
  induction l with
  | nil => intro _; simpa [Polynomial.degree_zero] using hD
  | cons p t ih =>
    intro h
    rw [List.sum_cons]
    apply lt_of_le_of_lt (Polynomial.degree_add_le _ _)
    exact max_lt (h p (List.mem_cons_self _ _)) (ih fun q hq => h q (List.mem_cons_of_mem _ hq))

lemma eval_listSum {F : Type} [Field F] (x : F) :
    ∀ l : List (Polynomial F), l.sum.eval x = (l.map (Polynomial.eval x)).sum := by
  intro l
  induction l with
  | nil => simp
  | cons p t ih => simp [Polynomial.eval_add, ih]

lemma sharesFor_ok (F : Type) [Field F] [DecidableEq F] (k j : ℕ) :
    ∀ dealers : List (ℕ × F × List F), (∀ d ∈ dealers, k - 1 ≤ d.2.2.length) →
      sharesFor (fieldOps F) k j dealers =
        .ok (dealers.map (fun d => (d.1, (dealerPoly F d.2.1 d.2.2 k).eval ((j : ℕ) : F)))) := by
  intro dealers
  induction dealers with
  | nil => intro _; simp [sharesFor]
  | cons d t ih =>
    intro h
    rw [sharesFor]
    rw [fieldOps_ofId, polyEval_ok F d.2.1 d.2.2 k _ (h d (List.mem_cons_self _ _))]
    rw [exceptBindOk, ih (fun q hq => h q (List.mem_cons_of_mem _ hq)), exceptBindOk]
    rw [List.map_cons, ← dealerPoly_eval]

lemma foldSum_eq_sum (F : Type) [Field F] [DecidableEq F] (sh : List (ℕ × F)) :
    foldSum (fieldOps F) sh = (sh.map Prod.snd).sum := by
  unfold foldSum
  rw [show (fieldOps F).add = (· + ·) from rfl, show (fieldOps F).zero = (0 : F) from rfl]
  rw [foldl_add_sum, zero_add]

lemma foldedShares_ok (F : Type) [Field F] [DecidableEq F]
    (dealers : List (ℕ × F × List F)) (k : ℕ)
    (hlen : ∀ d ∈ dealers, k - 1 ≤ d.2.2.length) :
    ∀ sub : List ℕ, foldedShares (fieldOps F) dealers k sub =
      .ok (sub.map (fun j =>
        ((dealers.map (fun d => dealerPoly F d.2.1 d.2.2 k)).sum).eval ((j : ℕ) : F))) := by
  intro sub
  induction sub with
  | nil => simp [foldedShares]
  | cons j t ih =>
    rw [foldedShares, sharesFor_ok F k j dealers hlen, exceptBindOk, ih, exceptBindOk]
    rw [List.map_cons]
    congr 2
    rw [foldSum_eq_sum, List.map_map, eval_listSum, List.map_map]
    rfl

lemma eval_zero_basisDivisor {F : Type} [Field F] (x y : F) :
    Polynomial.eval 0 (Lagrange.basisDivisor x y) = (0 - y) / (x - y) := by
  rw [Lagrange.basisDivisor]
  simp only [Polynomial.eval_mul, Polynomial.eval_C, Polynomial.eval_sub, Polynomial.eval_X]
  rw [div_eq_mul_inv, mul_comm]

lemma lagrange_recon_zero (F : Type) [Field F] [DecidableEq F] (Q : Polynomial F)
    (sub : List ℕ) (hdeg : Q.degree < (sub.length : ℕ))
    (hinj : ∀ i j : Fin sub.length, i ≠ j →
      ((sub.get i : ℕ) : F) ≠ ((sub.get j : ℕ) : F)) :
    (∑ i : Fin sub.length, (∏ j ∈ Finset.univ.erase i,
        (0 - ((sub.get j : ℕ) : F)) / (((sub.get i : ℕ) : F) - ((sub.get j : ℕ) : F))) *
      Q.eval ((sub.get i : ℕ) : F)) = Q.eval 0 := by
  set v : Fin sub.length → F := fun i => ((sub.get i : ℕ) : F) with hv
  have hvs : Set.InjOn v (Finset.univ : Finset (Fin sub.length)) := by
    intro i _ j _ hij
    by_contra hne
    exact hinj i j hne hij
  have hdeg2 : Q.degree < ((Finset.univ : Finset (Fin sub.length)).card : WithBot ℕ) := by
    simpa using hdeg
  have hQ := Lagrange.eq_interpolate hvs hdeg2
  have heval := congrArg (Polynomial.eval 0) hQ
  rw [Lagrange.interpolate_apply, Polynomial.eval_finset_sum] at heval
  simp only [Polynomial.eval_mul, Polynomial.eval_C] at heval
  have hbasis : ∀ i : Fin sub.length,
      Polynomial.eval 0 (Lagrange.basis Finset.univ v i) =
        ∏ j ∈ Finset.univ.erase i, (0 - v j) / (v i - v j) := by
    intro i
    rw [Lagrange.basis, Polynomial.eval_prod]
    exact Finset.prod_congr rfl fun j _ => eval_zero_basisDivisor (v i) (v j)
  calc (∑ i : Fin sub.length, (∏ j ∈ Finset.univ.erase i, (0 - v j) / (v i - v j)) *
          Q.eval (v i))
      = ∑ i : Fin sub.length, Q.eval (v i) * Polynomial.eval 0 (Lagrange.basis Finset.univ v i) := by
        refine Finset.sum_congr rfl fun i _ => ?_
        rw [hbasis i, mul_comm]
    _ = Q.eval 0 := heval.symm

/-! ## Claim C2 (additive reconstruction round-trip) — confirmed -/

/-- **C2**: for a threshold `k` and dealers with pairwise-distinct ids who each
generate a degree-`(k-1)` polynomial, exchange shares with every participant,
and fold by field addition, reconstructing with the Lagrange weights (at 0) of
any size-`k` subset of the ids yields the sum of all secrets; and in the
concrete `add_simulation` instance (modulus 17, secrets 2 and 4, coefficients
`[5]` and `[3]`, helper participant 3) every 2-element subset of `{1,2,3}`
reconstructs `(2+4) mod 17 = 6`. -/
theorem C2_additive_reconstruction :
    (∀ (F : Type) [Field F] [DecidableEq F] (k : ℕ) (dealers : List (ℕ × F × List F))
        (sub : List ℕ),
      1 ≤ k →
      (∀ d ∈ dealers, k - 1 ≤ d.2.2.length) →
      sub.length = k →
      sub.Sublist (dealers.map Prod.fst) →
      List.Pairwise (fun a b : ℕ => (a : F) ≠ (b : F)) (dealers.map Prod.fst) →
      reconProtocol (fieldOps F) dealers k sub =
        .ok ((dealers.map (fun d => d.2.1)).sum)) ∧
    addSim = .ok (6, 6, 6) := by
  refine ⟨?_, rfl⟩
  intro F _ _ k dealers sub hk hlen hsubk hsub hpw
  have hpw2 : List.Pairwise (fun a b : ℕ => (a : F) ≠ (b : F)) sub :=
    List.Pairwise.sublist hsub hpw
  have hinj : ∀ i j : Fin sub.length, i ≠ j →
      ((sub.get i : ℕ) : F) ≠ ((sub.get j : ℕ) : F) := by
    have hget := List.pairwise_iff_get.mp hpw2
    intro i j hne
    rcases lt_or_gt_of_ne hne with h | h
    · exact hget i j h
    · exact (hget j i h).symm
  have hdeg : ((dealers.map (fun d => dealerPoly F d.2.1 d.2.2 k)).sum).degree <
      ((sub.length : ℕ) : WithBot ℕ) := by
    apply list_sum_degree_lt _ (WithBot.bot_lt_coe _)
    intro p hp
    rcases List.mem_map.mp hp with ⟨d, _, hd⟩
    rw [← hd, hsubk]
    exact dealerPoly_degree_lt d.2.1 d.2.2 k hk
  unfold reconProtocol
  rw [phis_ok_of_injective F sub hinj, exceptBindOk,
    foldedShares_ok F dealers k hlen sub, exceptBindOk]
  apply congrArg Except.ok
  have hmap : sub.map (fun j =>
      ((dealers.map (fun d => dealerPoly F d.2.1 d.2.2 k)).sum).eval ((j : ℕ) : F)) =
      List.ofFn (fun i : Fin sub.length =>
        ((dealers.map (fun d => dealerPoly F d.2.1 d.2.2 k)).sum).eval ((sub.get i : ℕ) : F)) := by
    conv_lhs => rw [← List.ofFn_get sub]
    rw [List.map_ofFn]
    rfl
  rw [hmap, ofFn_zip_ofFn, List.map_ofFn]
  rw [show (fieldOps F).add = (· + ·) from rfl, show (fieldOps F).zero = (0 : F) from rfl]
  rw [foldl_add_sum, zero_add, List.sum_ofFn]
  have hcomp : ∀ i : Fin sub.length,
      ((fun p : (ℕ × F) × F => (fieldOps F).mul p.1.2 p.2) ∘ fun i : Fin sub.length =>
        ((sub.get i, ∏ j ∈ Finset.univ.erase i,
          (0 - ((sub.get j : ℕ) : F)) / (((sub.get i : ℕ) : F) - ((sub.get j : ℕ) : F))),
         ((dealers.map (fun d => dealerPoly F d.2.1 d.2.2 k)).sum).eval ((sub.get i : ℕ) : F))) i =
      (∏ j ∈ Finset.univ.erase i,
        (0 - ((sub.get j : ℕ) : F)) / (((sub.get i : ℕ) : F) - ((sub.get j : ℕ) : F))) *
        ((dealers.map (fun d => dealerPoly F d.2.1 d.2.2 k)).sum).eval ((sub.get i : ℕ) : F) :=
    fun i => rfl
  rw [Finset.sum_congr rfl fun i _ => hcomp i]
  rw [lagrange_recon_zero F _ sub hdeg hinj]
  rw [eval_listSum, List.map_map]
  have hsec : ((fun p => Polynomial.eval 0 p) ∘ fun d : ℕ × F × List F =>
      dealerPoly F d.2.1 d.2.2 k) = fun d : ℕ × F × List F => d.2.1 := by
    funext d
    simp [dealerPoly_eval]
  rw [hsec]

/-- **C2, witness**: the general reconstruction statement at `F = ℚ`,
threshold 2, dealers `(1, 2, [5])` and `(2, 4, [3])`, subset `[1, 2]`:
the reconstructed value is `2 + 4 = 6`. -/
theorem C2_witness :
    reconProtocol (fieldOps ℚ) [(1, (2 : ℚ), [5]), (2, (4 : ℚ), [3])] 2 [1, 2] =
      .ok 6 := by
  have h := C2_additive_reconstruction.1 ℚ 2 [(1, (2 : ℚ), [5]), (2, (4 : ℚ), [3])] [1, 2]
    (by decide)
    (by intro d hd; fin_cases hd <;> norm_num)
    rfl
    (by simp)
    (by norm_num [List.pairwise_cons])
  rw [show ((6 : ℚ)) = ((2 : ℚ) + 4) by norm_num]
  simpa using h

/-! ## The binomial table: loop invariant and table characterization -/

lemma optBindSome {α β : Type} (a : α) (f : α → Option β) : (some a >>= f) = f a := rfl

lemma facRec_step (M i : ℕ) (h : 2 ≤ i) : facRec M i = facRec M (i - 1) * i % M := by
  obtain ⟨m, rfl⟩ : ∃ m, i = m + 2 := ⟨i - 2, by omega⟩
  rfl

lemma invRec_step (M i : ℕ) (h : 2 ≤ i) :
    invRec M i = M - invRec M (M % i) * (M / i) % M := by
  obtain ⟨m, rfl⟩ : ∃ m, i = m + 2 := ⟨i - 2, by omega⟩
  rw [invRec]

lemma finvRec_step (M i : ℕ) (h : 2 ≤ i) :
    finvRec M i = finvRec M (i - 1) * invRec M i % M := by
  obtain ⟨m, rfl⟩ : ∃ m, i = m + 2 := ⟨i - 2, by omega⟩
  rfl

lemma buildLoop_spec (M cap : ℕ) :
    ∀ left i (fac inv finv : List ℕ),
      i + left = cap → 2 ≤ i →
      fac.length = cap → inv.length = cap → finv.length = cap →
      (∀ j, j < i → fac.get? j = some (facRec M j)) →
      (∀ j, j < i → inv.get? j = some (invRec M j)) →
      (∀ j, j < i → finv.get? j = some (finvRec M j)) →
      ∃ fac2 inv2 finv2,
        buildLoop M left i fac inv finv = some (fac2, inv2, finv2) ∧
        fac2.length = cap ∧ finv2.length = cap ∧
        (∀ j, j < cap → fac2.get? j = some (facRec M j)) ∧
        (∀ j, j < cap → finv2.get? j = some (finvRec M j)) := by
  intro left
  induction left with
  | zero =>
    intro i fac inv finv hic hi2 hfl hil hgl hf hv hg
    refine ⟨fac, inv, finv, rfl, hfl, hgl, ?_, ?_⟩
    · intro j hj; exact hf j (by omega)
    · intro j hj; exact hg j (by omega)
  | succ left ih =>
    intro i fac inv finv hic hi2 hfl hil hgl hf hv hg
    have hicap : i < cap := by omega
    have hi0 : 0 < i := by omega
    have e1 : getC fac (i - 1) = some (facRec M (i - 1)) := hf (i - 1) (by omega)
    have e2 : setC fac i (facRec M (i - 1) * i % M) =
        some (fac.set i (facRec M (i - 1) * i % M)) := by
      unfold setC; rw [if_pos (by rw [hfl]; omega)]
    have e3 : getC inv (M % i) = some (invRec M (M % i)) :=
      hv (M % i) (Nat.mod_lt M hi0)
    have e4 : setC inv i (M - invRec M (M % i) * (M / i) % M) =
        some (inv.set i (M - invRec M (M % i) * (M / i) % M)) := by
      unfold setC; rw [if_pos (by rw [hil]; omega)]
    have e5 : getC finv (i - 1) = some (finvRec M (i - 1)) := hg (i - 1) (by omega)
    have e6 : getC (inv.set i (M - invRec M (M % i) * (M / i) % M)) i =
        some (M - invRec M (M % i) * (M / i) % M) := by
      unfold getC
      exact List.get?_set_eq_of_lt _ (by rw [hil]; omega)
    have e7 : setC finv i
        (finvRec M (i - 1) * (M - invRec M (M % i) * (M / i) % M) % M) =
        some (finv.set i (finvRec M (i - 1) * (M - invRec M (M % i) * (M / i) % M) % M)) := by
      unfold setC; rw [if_pos (by rw [hgl]; omega)]
    rw [buildLoop]
    simp only [e1, optBindSome, e2, e3, e4, e5, e6, e7]
    apply ih (i + 1)
    · omega
    · omega
    · rw [List.length_set, hfl]
    · rw [List.length_set, hil]
    · rw [List.length_set, hgl]
    · intro j hj
      by_cases hji : j = i
      · subst hji
        rw [List.get?_set_eq_of_lt _ (by rw [hfl]; omega)]
        rw [facRec_step M j hi2]
      · rw [List.get?_set_ne _ _ (fun he => hji he.symm)]
        exact hf j (by omega)
    · intro j hj
      by_cases hji : j = i
      · subst hji
        rw [List.get?_set_eq_of_lt _ (by rw [hil]; omega)]
        rw [invRec_step M j hi2]
      · rw [List.get?_set_ne _ _ (fun he => hji he.symm)]
        exact hv j (by omega)
    · intro j hj
      by_cases hji : j = i
      · subst hji
        rw [List.get?_set_eq_of_lt _ (by rw [hgl]; omega)]
        rw [finvRec_step M j hi2, invRec_step M j hi2]
      · rw [List.get?_set_ne _ _ (fun he => hji he.symm)]
        exact hg j (by omega)

lemma new_none (M cap : ℕ) (h : cap < 2) : ModCom.new M cap = none := by
  interval_cases cap
  · rfl
  · rfl

lemma new_spec (M cap : ℕ) (hcap : 2 ≤ cap) :
    ∃ t : ModCom, ModCom.new M cap = some t ∧ t.fac.length = cap ∧ t.finv.length = cap ∧
      (∀ j, j < cap → t.fac.get? j = some (facRec M j)) ∧
      (∀ j, j < cap → t.finv.get? j = some (finvRec M j)) := by
  have hrl : (List.replicate cap (0 : ℕ)).length = cap := List.length_replicate cap 0
  have s1 : setC (List.replicate cap (0 : ℕ)) 0 1 =
      some ((List.replicate cap (0 : ℕ)).set 0 1) := by
    unfold setC; rw [if_pos (by rw [hrl]; omega)]
  have s2 : setC ((List.replicate cap (0 : ℕ)).set 0 1) 1 1 =
      some (((List.replicate cap (0 : ℕ)).set 0 1).set 1 1) := by
    unfold setC; rw [if_pos (by rw [List.length_set, hrl]; omega)]
  have s3 : setC (List.replicate cap (0 : ℕ)) 1 1 =
      some ((List.replicate cap (0 : ℕ)).set 1 1) := by
    unfold setC; rw [if_pos (by rw [hrl]; omega)]
  have hfac0 : ∀ j, j < 2 →
      (((List.replicate cap (0 : ℕ)).set 0 1).set 1 1).get? j = some (facRec M j) := by
    intro j hj
    match j, hj with
    | 0, _ =>
      rw [List.get?_set_ne _ _ (by omega), List.get?_set_eq_of_lt _ (by rw [hrl]; omega)]
      rfl
    | 1, _ =>
      rw [List.get?_set_eq_of_lt _ (by rw [List.length_set, hrl]; omega)]
      rfl
  have hinv0 : ∀ j, j < 2 →
      ((List.replicate cap (0 : ℕ)).set 1 1).get? j = some (invRec M j) := by
    intro j hj
    match j, hj with
    | 0, _ =>
      rw [List.get?_set_ne _ _ (by omega), List.get?_eq_getElem?]
      rw [List.getElem?_replicate_of_lt (by omega)]
      simp [invRec]
    | 1, _ =>
      rw [List.get?_set_eq_of_lt _ (by rw [hrl]; omega)]
      simp [invRec]
  have hfinv0 : ∀ j, j < 2 →
      (((List.replicate cap (0 : ℕ)).set 0 1).set 1 1).get? j = some (finvRec M j) := by
    intro j hj
    match j, hj with
    | 0, _ =>
      rw [List.get?_set_ne _ _ (by omega), List.get?_set_eq_of_lt _ (by rw [hrl]; omega)]
      rfl
    | 1, _ =>
      rw [List.get?_set_eq_of_lt _ (by rw [List.length_set, hrl]; omega)]
      rfl
  obtain ⟨fac2, inv2, finv2, hbuild, hl1, hl2, hent1, hent2⟩ :=
    buildLoop_spec M cap (cap - 2) 2
      (((List.replicate cap (0 : ℕ)).set 0 1).set 1 1)
      ((List.replicate cap (0 : ℕ)).set 1 1)
      (((List.replicate cap (0 : ℕ)).set 0 1).set 1 1)
      (by omega) (by omega)
      (by rw [List.length_set, List.length_set, hrl])
      (by rw [List.length_set, hrl])
      (by rw [List.length_set, List.length_set, hrl])
      hfac0 hinv0 hfinv0
  refine ⟨⟨fac2, finv2⟩, ?_, hl1, hl2, hent1, hent2⟩
  unfold ModCom.new
  simp only [s1, optBindSome, s2, s3, hbuild]

lemma facRec_mod (M : ℕ) (hM : 2 ≤ M) : ∀ n, facRec M n = Nat.factorial n % M := by
  intro n
  induction n using Nat.strong_induction_on with
  | _ n ih =>
    match n with
    | 0 =>
      show (1 : ℕ) = Nat.factorial 0 % M
      rw [show Nat.factorial 0 = 1 from rfl, Nat.mod_eq_of_lt (by omega)]
    | 1 =>
      show (1 : ℕ) = Nat.factorial 1 % M
      rw [show Nat.factorial 1 = 1 from rfl, Nat.mod_eq_of_lt (by omega)]
    | (m + 2) =>
      show facRec M (m + 1) * (m + 2) % M = Nat.factorial (m + 2) % M
      rw [ih (m + 1) (by omega), Nat.mod_mul_mod]
      congr 1
      conv_rhs => rw [Nat.factorial_succ]
      rw [Nat.mul_comm]

lemma invRec_cast {p : ℕ} (hp : Nat.Prime p) :
    ∀ i, 1 ≤ i → i < p → ((invRec p i : ℕ) : ZMod p) * (i : ZMod p) = 1 := by
  haveI : Fact (Nat.Prime p) := ⟨hp⟩
  intro i
  induction i using Nat.strong_induction_on with
  | _ i ih =>
    match i with
    | 0 => intro h1 _; omega
    | 1 =>
      intro _ _
      simp [invRec]
    | (m + 2) =>
      intro h1 hip
      set i := m + 2 with hi
      have hi2 : 2 ≤ i := by omega
      have hnd : ¬ i ∣ p := by
        intro hdvd
        rcases (Nat.Prime.eq_one_or_self_of_dvd hp i hdvd) with h | h <;> omega
      have hrem : p % i ≠ 0 := fun h0 => hnd (Nat.dvd_iff_mod_eq_zero.mpr h0)
      have hremlt : p % i < i := Nat.mod_lt p (by omega)
      have hih := ih (p % i) (by omega) (by omega) (by omega)
      have hz : (invRec p (p % i) * (p / i)) % p < p := Nat.mod_lt _ (by omega)
      rw [invRec_step p i hi2]
      rw [Nat.cast_sub (le_of_lt hz)]
      rw [ZMod.natCast_self, zero_sub, ZMod.natCast_mod, Nat.cast_mul]
      have hdm : ((p / i : ℕ) : ZMod p) * (i : ZMod p) = -((p % i : ℕ) : ZMod p) := by
        have hpd := Nat.div_add_mod p i
        have hcast := congrArg (fun x : ℕ => (x : ZMod p)) hpd
        simp only [Nat.cast_add, Nat.cast_mul, ZMod.natCast_self] at hcast
        have : (i : ZMod p) * ((p / i : ℕ) : ZMod p) + ((p % i : ℕ) : ZMod p) = 0 := hcast
        linear_combination this
      calc -(((invRec p (p % i) : ℕ) : ZMod p) * ((p / i : ℕ) : ZMod p)) * (i : ZMod p)
          = -(((invRec p (p % i) : ℕ) : ZMod p) * (((p / i : ℕ) : ZMod p) * (i : ZMod p))) := by
            ring
        _ = ((invRec p (p % i) : ℕ) : ZMod p) * ((p % i : ℕ) : ZMod p) := by
            rw [hdm]; ring
        _ = 1 := hih

lemma finvRec_cast {p : ℕ} (hp : Nat.Prime p) :
    ∀ i, i < p → ((finvRec p i : ℕ) : ZMod p) * ((Nat.factorial i : ℕ) : ZMod p) = 1 := by
  intro i
  induction i using Nat.strong_induction_on with
  | _ i ih =>
    match i with
    | 0 => intro _; simp [finvRec, Nat.factorial]
    | 1 => intro _; simp [finvRec, Nat.factorial]
    | (m + 2) =>
      intro hip
      have hih := ih (m + 1) (by omega) (by omega)
      have hinv := invRec_cast hp (m + 2) (by omega) hip
      rw [finvRec_step p (m + 2) (by omega)]
      show (((finvRec p (m + 1) * invRec p (m + 2)) % p : ℕ) : ZMod p) *
        ((Nat.factorial (m + 2) : ℕ) : ZMod p) = 1
      rw [ZMod.natCast_mod, Nat.cast_mul, Nat.factorial_succ, Nat.cast_mul]
      calc ((finvRec p (m + 1) : ℕ) : ZMod p) * ((invRec p (m + 2) : ℕ) : ZMod p) *
            (((m + 2 : ℕ) : ZMod p) * ((Nat.factorial (m + 1) : ℕ) : ZMod p))
          = (((finvRec p (m + 1) : ℕ) : ZMod p) * ((Nat.factorial (m + 1) : ℕ) : ZMod p)) *
            (((invRec p (m + 2) : ℕ) : ZMod p) * ((m + 2 : ℕ) : ZMod p)) := by ring
        _ = 1 := by
            rw [hih]
            have : ((m + 2 : ℕ) : ZMod p) = ((m + 2 : ℕ) : ZMod p) := rfl
            push_cast at hinv ⊢
            rw [one_mul]
            exact hinv

/-! ## Claim C9 (binomial table correctness) — confirmed -/

/-- **C9**: for a prime modulus `MOD`, every capacity `2 ≤ cap ≤ MOD` and the
table built by `ModCom::new(cap)` (seeded `fac[0]=fac[1]=1`,
`finv[0]=finv[1]=1`, `inv[1]=1` before the loop from index 2): `com(n,k)` is
`0` whenever `n < k`, is `1` for `k = 0` and every `n < cap`, and equals the
binomial coefficient `C(n,k) mod MOD` for all `0 ≤ k ≤ n < cap`. -/
theorem C9_binomial_table (M cap : ℕ) (hM : Nat.Prime M) (hcap2 : 2 ≤ cap)
    (hcapM : cap ≤ M) (t : ModCom) (ht : ModCom.new M cap = some t) :
    (∀ n k2 : ℕ, n < k2 → ModCom.com M t n k2 = some 0) ∧
    (∀ n, n < cap → ModCom.com M t n 0 = some 1) ∧
    (∀ n k2, k2 ≤ n → n < cap → ModCom.com M t n k2 = some (Nat.choose n k2 % M)) := by
  haveI : Fact (Nat.Prime M) := ⟨hM⟩
  have hM2 : 2 ≤ M := hM.two_le
  obtain ⟨t2, ht2, hfl, hgl, hf, hg⟩ := new_spec M cap hcap2
  rw [ht] at ht2
  have htt : t = t2 := Option.some.inj ht2
  subst htt
  have hmain : ∀ n k2, k2 ≤ n → n < cap →
      ModCom.com M t n k2 = some (Nat.choose n k2 % M) := by
    intro n k2 hkn hncap
    unfold ModCom.com
    rw [if_neg (by omega)]
    unfold getC
    rw [hf n hncap, optBindSome, hg k2 (by omega), optBindSome, hg (n - k2) (by omega),
      optBindSome]
    refine congrArg some ?_
    have hval : facRec M n * (finvRec M k2 * finvRec M (n - k2) % M) % M < M :=
      Nat.mod_lt _ (by omega)
    have hch : Nat.choose n k2 % M < M := Nat.mod_lt _ (by omega)
    have hcast : ((facRec M n * (finvRec M k2 * finvRec M (n - k2) % M) % M : ℕ) : ZMod M) =
        ((Nat.choose n k2 % M : ℕ) : ZMod M) := by
      rw [ZMod.natCast_mod, ZMod.natCast_mod, Nat.cast_mul, ZMod.natCast_mod, Nat.cast_mul]
      rw [facRec_mod M hM2 n, ZMod.natCast_mod]
      have hfk := finvRec_cast hM k2 (by omega)
      have hfnk := finvRec_cast hM (n - k2) (by omega)
      have hne1 : ((Nat.factorial k2 : ℕ) : ZMod M) ≠ 0 := by
        rw [Ne, ZMod.natCast_zmod_eq_zero_iff_dvd]
        intro hd
        have := (Nat.Prime.dvd_factorial hM).mp hd
        omega
      have hne2 : ((Nat.factorial (n - k2) : ℕ) : ZMod M) ≠ 0 := by
        rw [Ne, ZMod.natCast_zmod_eq_zero_iff_dvd]
        intro hd
        have := (Nat.Prime.dvd_factorial hM).mp hd
        omega
      apply mul_right_cancel₀ (mul_ne_zero hne1 hne2)
      calc ((Nat.factorial n : ℕ) : ZMod M) *
            (((finvRec M k2 : ℕ) : ZMod M) * ((finvRec M (n - k2) : ℕ) : ZMod M)) *
            (((Nat.factorial k2 : ℕ) : ZMod M) * ((Nat.factorial (n - k2) : ℕ) : ZMod M))
          = ((Nat.factorial n : ℕ) : ZMod M) *
            ((((finvRec M k2 : ℕ) : ZMod M) * ((Nat.factorial k2 : ℕ) : ZMod M)) *
             (((finvRec M (n - k2) : ℕ) : ZMod M) * ((Nat.factorial (n - k2) : ℕ) : ZMod M))) := by
            ring
        _ = ((Nat.factorial n : ℕ) : ZMod M) := by rw [hfk, hfnk]; ring
        _ = ((Nat.choose n k2 : ℕ) : ZMod M) *
            (((Nat.factorial k2 : ℕ) : ZMod M) * ((Nat.factorial (n - k2) : ℕ) : ZMod M)) := by
            rw [← Nat.cast_mul, ← Nat.cast_mul, ← mul_assoc,
              Nat.choose_mul_factorial_mul_factorial hkn]
    have hv := congrArg ZMod.val hcast
    rwa [ZMod.val_cast_of_lt hval, ZMod.val_cast_of_lt hch] at hv
  refine ⟨?_, ?_, hmain⟩
  · intro n k2 hnk
    unfold ModCom.com
    rw [if_pos hnk]
  · intro n hn
    rw [hmain n 0 (Nat.zero_le n) hn, Nat.choose_zero_right, Nat.mod_eq_of_lt (by omega)]

/-- **C9, witness**: the claim at `MOD = 17`, `cap = 5` (the table
`ModCom::new(5)` holds `fac = [1,1,2,6,7]`, `finv = [1,1,9,3,5]`):
`com(1,3) = 0`, `com(3,0) = 1`, `com(4,2) = C(4,2) mod 17 = 6`. -/
theorem C9_witness :
    ModCom.com 17 ⟨[1, 1, 2, 6, 7], [1, 1, 9, 3, 5]⟩ 1 3 = some 0 ∧
    ModCom.com 17 ⟨[1, 1, 2, 6, 7], [1, 1, 9, 3, 5]⟩ 3 0 = some 1 ∧
    ModCom.com 17 ⟨[1, 1, 2, 6, 7], [1, 1, 9, 3, 5]⟩ 4 2 = some (Nat.choose 4 2 % 17) := by
  have h := C9_binomial_table 17 5 (by norm_num) (by decide) (by decide)
    ⟨[1, 1, 2, 6, 7], [1, 1, 9, 3, 5]⟩ rfl
  exact ⟨h.1 1 3 (by decide), h.2.1 3 (by decide), h.2.2 4 2 (by decide) (by decide)⟩

/-! ## Claim C10 (implicit capacity bound of the binomial table) — confirmed -/

/-- **C10**: constructing the table with capacity `cap < 2` fails (the seeding
of entries 0 and 1 indexes out of bounds), construction succeeds for every
`cap ≥ 2`, and `com(n, k)` with `k ≤ n` and `n ≥ cap` fails with an
out-of-bounds table access instead of returning a value — no bounds are
checked at the public interface. -/
theorem C10_capacity_bounds (M cap : ℕ) :
    (cap < 2 → ModCom.new M cap = none) ∧
    (2 ≤ cap → ∃ t : ModCom, ModCom.new M cap = some t ∧ t.fac.length = cap) ∧
    (∀ (t : ModCom) (n k2 : ℕ), ModCom.new M cap = some t → k2 ≤ n → cap ≤ n →
      ModCom.com M t n k2 = none) := by
  refine ⟨new_none M cap, ?_, ?_⟩
  · intro h
    obtain ⟨t, ht, hfl, _, _, _⟩ := new_spec M cap h
    exact ⟨t, ht, hfl⟩
  · intro t n k2 ht hkn hcapn
    have hcap2 : 2 ≤ cap := by
      by_contra hc
      rw [new_none M cap (by omega)] at ht
      cases ht
    obtain ⟨t2, ht2, hfl, _, _, _⟩ := new_spec M cap hcap2
    rw [ht] at ht2
    have htt : t = t2 := Option.some.inj ht2
    subst htt
    unfold ModCom.com
    rw [if_neg (by omega)]
    unfold getC
    rw [List.get?_eq_none.mpr (by omega)]
    rfl

/-- **C10, witness**: at `MOD = 17`: capacity 1 fails to build, capacity 5
builds, and the built table's `com(7,3)` (with `7 ≥ cap`) fails. -/
theorem C10_witness :
    ModCom.new 17 1 = none ∧
    (ModCom.new 17 5).isSome = true ∧
    (ModCom.new 17 5).bind (fun t => ModCom.com 17 t 7 3) = none := by
  refine ⟨(C10_capacity_bounds 17 1).1 (by decide), ?_, ?_⟩
  · obtain ⟨t, ht, _⟩ := (C10_capacity_bounds 17 5).2.1 (by decide)
    rw [ht]
    rfl
  · obtain ⟨t, ht, _⟩ := (C10_capacity_bounds 17 5).2.1 (by decide)
    rw [ht]
    exact (C10_capacity_bounds 17 5).2.2 t 7 3 ht (by decide) (by decide)

end Shamir
